import Mathlib

/-!
Verification of the statistics engine of `programa-estadistica`
(`script.js`: `parseInput`, `calcMean`, `calcMedian`, `calcMode`,
`calcRange`, `calcVariance`, `getFrequencyTable`, and the `stats`
record built in `validateAndProcess`).

Embedding conventions:
* JavaScript numbers are modelled exactly: integer data as `Int`,
  derived statistics as `Rat`.  The engine's arithmetic on realistic
  inputs (small integer counts) is exact in floating point as well,
  so the rational model is faithful for the properties stated here.
* `Number.prototype.toString` / `parseInt` are modelled on decimal
  character lists (`natToDigits` / `jsParseInt`); `String.prototype.trim`
  and `String.prototype.split` (on the delimiter class `[,;\s\n\r]+`
  followed by dropping empty fragments, as `parseInput` does) are
  modelled structurally on `String.data`.
* `toFixed(k)` followed by `parseFloat` is modelled by `roundTo k`:
  round half towards positive infinity at `k` decimal places, which is
  the rounding ECMAScript prescribes for `toFixed`.
* Mutation-free translation: the JavaScript loop of `parseInput` that
  pushes onto `numbers` / `invalidValues` becomes `filterMap` / `filter`
  over the same token list; `[...values].sort((a,b) => a-b)` becomes
  `List.insertionSort (· ≤ ·)`, a sorted permutation (sorting a copy,
  the original list is never changed).
-/

/-- Decimal digit character for `d ≤ 9` (as produced by `Number.toString`). -/
def digitChar (d : Nat) : Char :=
  match d with
  | 0 => '0' | 1 => '1' | 2 => '2' | 3 => '3' | 4 => '4'
  | 5 => '5' | 6 => '6' | 7 => '7' | 8 => '8' | _ => '9'

/-- Numeric value of a digit character. -/
def digitVal (c : Char) : Nat := c.toNat - 48

/-- Value of a big-endian list of decimal digit characters
(the accumulating loop of `parseInt` on a digit string). -/
def digitsToNat (ds : List Char) : Nat :=
  ds.foldl (fun a c => 10 * a + digitVal c) 0

/-- Fuel-indexed big-endian decimal digit expansion; adequate when `n ≤ fuel`. -/
def natToDigitsAux : Nat → Nat → List Char
  | 0, n => [digitChar n]
  | fuel + 1, n =>
    if n < 10 then [digitChar n]
    else natToDigitsAux fuel (n / 10) ++ [digitChar (n % 10)]

/-- Big-endian decimal digit expansion of a natural number. -/
def natToDigits (n : Nat) : List Char := natToDigitsAux n n

/-- Model of `Number.prototype.toString` on integer values: canonical decimal
form, with a leading minus sign for negative values (`(-0).toString() = "0"`
is reflected by `Int` having a single zero). -/
def jsIntToString (v : Int) : String :=
  if v < 0 then String.mk ('-' :: natToDigits v.natAbs)
  else String.mk (natToDigits v.natAbs)

/-- Character-list core of `parseInt`: an optional leading sign followed by
the longest decimal-digit run; `none` models `NaN`. -/
def jsParseIntChars : List Char → Option Int
  | [] => none
  | c :: cs =>
    let signRest : Int × List Char :=
      if c = '-' then (-1, cs) else if c = '+' then (1, cs) else (1, c :: cs)
    let ds := signRest.2.takeWhile Char.isDigit
    if ds = [] then none
    else some (signRest.1 * (digitsToNat ds : Int))

/-- Model of `parseInt(t)` on an already trimmed token. -/
def jsParseInt (s : String) : Option Int := jsParseIntChars s.data

/-- The validity test of the `parseInput` loop in `script.js` (line 34):
a trimmed token is kept with value `v` iff `parseInt` succeeds, the parsed
value prints back to exactly the token (`parsed.toString() !== trimmed`
rejects otherwise), and the value is not negative (`parsed < 0` rejects). -/
def tokenValue? (t : String) : Option Int :=
  match jsParseInt t with
  | none => none
  | some v => if jsIntToString v = t ∧ 0 ≤ v then some v else none

/-- The delimiter class `[,;\s\n\r]` of `parseInput`. -/
def isDelim (c : Char) : Bool := c = ',' || c = ';' || c.isWhitespace

/-- Structural model of splitting a string at every delimiter character
(adjacent delimiters produce empty fragments, exactly like
`String.prototype.split`; `parseInput` filters the empty ones out). -/
def splitCharsAux (p : Char → Bool) : List Char → List Char → List String
  | [], acc => [String.mk acc.reverse]
  | c :: cs, acc =>
    if p c then String.mk acc.reverse :: splitCharsAux p cs []
    else splitCharsAux p cs (c :: acc)

/-- Model of `s.split(/[,;\s\n\r]+/)` before the empty-token filter. -/
def jsSplit (p : Char → Bool) (s : String) : List String :=
  splitCharsAux p s.data []

/-- Model of `String.prototype.trim`. -/
def jsTrim (s : String) : String :=
  String.mk (((s.data.dropWhile Char.isWhitespace).reverse.dropWhile
    Char.isWhitespace).reverse)

/-- The token list of `parseInput`:
`inputString.trim().split(/[,;\s\n\r]+/).filter(val => val.trim() !== '')`. -/
def rawTokens (inputString : String) : List String :=
  (jsSplit isDelim (jsTrim inputString)).filter (fun v => jsTrim v ≠ "")

/-- The invalid tokens collected by the `parseInput` loop, in input order. -/
def invalidTokensOf (inputString : String) : List String :=
  ((rawTokens inputString).map jsTrim).filter (fun t => (tokenValue? t).isNone)

/-- The valid numbers collected by the `parseInput` loop, in input order. -/
def validNumbersOf (inputString : String) : List Int :=
  ((rawTokens inputString).map jsTrim).filterMap tokenValue?

/-- The four `throw new Error(...)` cases of `parseInput`. -/
inductive ParseError
  | emptyInput
  | noTokens
  | invalidTokens (literals : List String)
  | noValidNumbers
deriving DecidableEq, Repr

/-- Model of `parseInput` (`script.js` lines 11–50): empty-input check, token
split, per-token validation collecting every invalid literal, and the final
error/return cases, in source order. -/
def parseInput (inputString : String) : Except ParseError (List Int) :=
  if jsTrim inputString = "" then .error .emptyInput
  else if rawTokens inputString = [] then .error .noTokens
  else if invalidTokensOf inputString ≠ [] then
    .error (.invalidTokens (invalidTokensOf inputString))
  else if validNumbersOf inputString = [] then .error .noValidNumbers
  else .ok (validNumbersOf inputString)

/-- Model of `calcMean`. -/
def calcMean (values : List Int) : Rat :=
  if values.length = 0 then 0
  else (values.sum : Rat) / (values.length : Rat)

/-- Model of `calcMedian`: sort a copy ascending, then take the middle
element (odd length) or the mean of the two middle elements (even length). -/
def calcMedian (values : List Int) : Rat :=
  if values.length = 0 then 0
  else
    let sorted := List.insertionSort (· ≤ ·) values
    let middle := sorted.length / 2
    if sorted.length % 2 = 0 then
      ((sorted.getD (middle - 1) 0 + sorted.getD middle 0 : Int) : Rat) / 2
    else ((sorted.getD middle 0 : Int) : Rat)

/-- The `type` strings of `calcMode` (`'ninguna'`, `'unimodal'`,
`'bimodal'`, `'multimodal'`). -/
inductive ModeKind
  | ninguna
  | unimodal
  | bimodal
  | multimodal
deriving DecidableEq, Repr

/-- The record returned by `calcMode`. -/
structure ModeInfo where
  modes : List Int
  frequency : Nat
  type : ModeKind
deriving DecidableEq, Repr

/-- `Math.max(...Object.values(frequency))` of `calcMode`: the largest
occurrence count among the distinct values. -/
def maxFreq (values : List Int) : Nat :=
  ((values.dedup).map (fun v => values.count v)).foldr max 0

/-- The distinct values of the sample in ascending order (the sorted key set
of the `frequency` object; `calcMode` and `getFrequencyTable` both sort it
with `(a, b) => a - b`). -/
def sortedUnique (values : List Int) : List Int :=
  List.insertionSort (· ≤ ·) values.dedup

/-- Model of `calcMode`. -/
def calcMode (values : List Int) : ModeInfo :=
  if values.length = 0 then { modes := [], frequency := 0, type := .ninguna }
  else
    let mf := maxFreq values
    let modes := (sortedUnique values).filter (fun v => values.count v = mf)
    let t :=
      if mf = 1 then ModeKind.ninguna
      else if modes.length = 1 then ModeKind.unimodal
      else if modes.length = 2 then ModeKind.bimodal
      else ModeKind.multimodal
    { modes := modes, frequency := mf, type := t }

/-- `Math.max(...values)` on a non-empty list (`0` outside the modelled
domain; every call site guards against the empty list). -/
def jsMax (values : List Int) : Int :=
  match values with
  | [] => 0
  | x :: xs => xs.foldl max x

/-- `Math.min(...values)` on a non-empty list (`0` outside the modelled
domain; every call site guards against the empty list). -/
def jsMin (values : List Int) : Int :=
  match values with
  | [] => 0
  | x :: xs => xs.foldl min x

/-- Model of `calcRange`. -/
def calcRange (values : List Int) : Int :=
  if values.length = 0 then 0 else jsMax values - jsMin values

/-- Model of `calcVariance` with its two divisor policies and the explicit
`n = 0` / `n = 1` guards returning `0`. -/
def calcVariance (values : List Int) (population : Bool := true) : Rat :=
  if values.length = 0 then 0
  else if values.length = 1 then 0
  else
    let mean := calcMean values
    let sumSquaredDiffs := (values.map (fun val : Int => ((val : Rat) - mean) ^ 2)).sum
    let divisor : Rat :=
      if population then (values.length : Rat) else (values.length : Rat) - 1
    sumSquaredDiffs / divisor

/-- `parseFloat(x.toFixed(d))`: round half towards positive infinity at `d`
decimal places, as ECMAScript prescribes for `toFixed`. -/
def roundTo (d : Nat) (x : Rat) : Rat :=
  ((⌊x * 10 ^ d + 1 / 2⌋ : Int) : Rat) / 10 ^ d

/-- One row of the frequency table built by `getFrequencyTable`. -/
structure FreqRow where
  value : Int
  fa : Nat
  fr : Rat
  Fa : Nat
  Fr : Rat
  percentage : Rat
deriving DecidableEq, Repr

/-- The row-building loop of `getFrequencyTable`: walk the ascending distinct
values carrying the unrounded cumulative absolute and relative frequencies,
rounding `fr`, `Fr` (4 decimals) and `percentage` (2 decimals) only when a
row is emitted. -/
def freqRowsAux (values : List Int) : List Int → Nat → Rat → List FreqRow
  | [], _, _ => []
  | v :: vs, cumFa, cumFr =>
    let fa := values.count v
    let fr : Rat := (fa : Rat) / (values.length : Rat)
    let cumFa' := cumFa + fa
    let cumFr' := cumFr + fr
    { value := v, fa := fa, fr := roundTo 4 fr, Fa := cumFa',
      Fr := roundTo 4 cumFr', percentage := roundTo 2 (fr * 100) } ::
      freqRowsAux values vs cumFa' cumFr'

/-- Model of `getFrequencyTable`. -/
def getFrequencyTable (values : List Int) : List FreqRow :=
  if values.length = 0 then []
  else freqRowsAux values (sortedUnique values) 0 0

/-- The `stats` record assembled in `validateAndProcess` (the exactly
representable fields; `stdDev = Math.sqrt(variance)` is expressed through
`Real.sqrt` in the theorems). -/
structure Stats where
  n : Nat
  sum : Int
  min : Int
  max : Int
  mean : Rat
  median : Rat
  modeInfo : ModeInfo
  range : Int
  variance : Rat
deriving DecidableEq, Repr

/-- The statistics computation of `validateAndProcess`. -/
def computeStats (values : List Int) : Stats :=
  { n := values.length
    sum := values.sum
    min := jsMin values
    max := jsMax values
    mean := calcMean values
    median := calcMedian values
    modeInfo := calcMode values
    range := calcRange values
    variance := calcVariance values true }

deriving instance DecidableEq for Except

open List

/-! ## Digit and round-trip lemmas for the `parseInt` / `toString` model -/

theorem digitVal_digitChar {d : Nat} (h : d < 10) : digitVal (digitChar d) = d := by
  interval_cases d <;> rfl

theorem isDigit_digitChar (d : Nat) : (digitChar d).isDigit = true := by
  unfold digitChar
  rcases d with _ | _ | _ | _ | _ | _ | _ | _ | _ | d <;> rfl

theorem digitsToNat_append_digit (ds : List Char) (c : Char) :
    digitsToNat (ds ++ [c]) = 10 * digitsToNat ds + digitVal c := by
  simp [digitsToNat, List.foldl_append]

theorem digitsToNat_natToDigitsAux :
    ∀ fuel n, n ≤ fuel → digitsToNat (natToDigitsAux fuel n) = n := by
  intro fuel
  induction fuel with
  | zero =>
    intro n h
    interval_cases n
    rfl
  | succ fuel ih =>
    intro n h
    simp only [natToDigitsAux]
    split
    · next hlt =>
      simp only [digitsToNat, List.foldl_cons, List.foldl_nil]
      rw [digitVal_digitChar hlt]
      omega
    · next hge =>
      have h10 : 10 ≤ n := by omega
      have h1 : n / 10 ≤ fuel := by omega
      rw [digitsToNat_append_digit, ih _ h1, digitVal_digitChar (Nat.mod_lt _ (by omega))]
      omega

theorem isDigit_of_mem_natToDigitsAux :
    ∀ fuel n c, c ∈ natToDigitsAux fuel n → c.isDigit = true := by
  intro fuel
  induction fuel with
  | zero =>
    intro n c hc
    simp only [natToDigitsAux, List.mem_singleton] at hc
    exact hc ▸ isDigit_digitChar n
  | succ fuel ih =>
    intro n c hc
    simp only [natToDigitsAux] at hc
    split at hc
    · simp only [List.mem_singleton] at hc
      exact hc ▸ isDigit_digitChar n
    · rcases List.mem_append.mp hc with hc | hc
      · exact ih _ _ hc
      · simp only [List.mem_singleton] at hc
        exact hc ▸ isDigit_digitChar _

theorem natToDigitsAux_ne_nil (fuel n : Nat) : natToDigitsAux fuel n ≠ [] := by
  cases fuel with
  | zero => simp [natToDigitsAux]
  | succ fuel =>
    simp only [natToDigitsAux]
    split
    · simp
    · simp

theorem takeWhile_eq_self_of_all {α : Type} (p : α → Bool) :
    ∀ l : List α, (∀ c ∈ l, p c = true) → l.takeWhile p = l := by
  intro l
  induction l with
  | nil => intro _; rfl
  | cons c cs ih =>
    intro h
    rw [List.takeWhile_cons, h c (List.mem_cons_self c cs)]
    simp only [if_true]
    rw [ih (fun x hx => h x (List.mem_cons_of_mem c hx))]

theorem digitsToNat_natToDigits (n : Nat) : digitsToNat (natToDigits n) = n :=
  digitsToNat_natToDigitsAux n n le_rfl

theorem natToDigits_ne_nil (n : Nat) : natToDigits n ≠ [] :=
  natToDigitsAux_ne_nil n n

theorem isDigit_of_mem_natToDigits {n : Nat} {c : Char} (h : c ∈ natToDigits n) :
    c.isDigit = true :=
  isDigit_of_mem_natToDigitsAux n n c h

theorem jsParseIntChars_digits {l : List Char} (hne : l ≠ [])
    (hall : ∀ c ∈ l, c.isDigit = true) :
    jsParseIntChars l = some (digitsToNat l : Int) := by
  obtain ⟨c, cs, rfl⟩ := List.exists_cons_of_ne_nil hne
  have hcd : c.isDigit = true := hall c (List.mem_cons_self c cs)
  have hcm : ¬(c = '-') := by intro h; rw [h] at hcd; exact absurd hcd (by decide)
  have hcp : ¬(c = '+') := by intro h; rw [h] at hcd; exact absurd hcd (by decide)
  simp only [jsParseIntChars, if_neg hcm, if_neg hcp]
  rw [takeWhile_eq_self_of_all _ _ hall]
  simp

theorem jsParseInt_jsIntToString (v : Int) : jsParseInt (jsIntToString v) = some v := by
  have hdig : ∀ n : Nat, jsParseIntChars (natToDigits n) = some (n : Int) := by
    intro n
    rw [jsParseIntChars_digits (natToDigits_ne_nil n)
      (fun c hc => isDigit_of_mem_natToDigits hc)]
    rw [digitsToNat_natToDigits n]
  rcases lt_or_le v 0 with hv | hv
  · rw [jsIntToString, if_pos hv, jsParseInt]
    show jsParseIntChars ('-' :: natToDigits v.natAbs) = some v
    have hall : ∀ x ∈ natToDigits v.natAbs, x.isDigit = true :=
      fun x hx => isDigit_of_mem_natToDigits hx
    have htw : (natToDigits v.natAbs).takeWhile Char.isDigit = natToDigits v.natAbs :=
      takeWhile_eq_self_of_all _ _ hall
    simp only [jsParseIntChars]
    simp [htw, natToDigits_ne_nil v.natAbs, digitsToNat_natToDigits, abs_of_neg hv]
  · rw [jsIntToString, if_neg (not_lt.mpr hv), jsParseInt]
    show jsParseIntChars (natToDigits v.natAbs) = some v
    rw [hdig v.natAbs]
    simp only [Option.some.injEq]
    omega

theorem jsIntToString_injective : Function.Injective jsIntToString := by
  intro a b h
  have ha := jsParseInt_jsIntToString a
  rw [h, jsParseInt_jsIntToString b] at ha
  exact (Option.some.injEq _ _).mp ha.symm

theorem tokenValue?_jsIntToString (v : Int) :
    tokenValue? (jsIntToString v) = if 0 ≤ v then some v else none := by
  simp only [tokenValue?, jsParseInt_jsIntToString]
  by_cases hv : 0 ≤ v
  · simp [hv]
  · simp [hv]

theorem tokenValue?_eq_some_iff {t : String} {v : Int} :
    tokenValue? t = some v ↔ 0 ≤ v ∧ jsIntToString v = t := by
  constructor
  · intro h
    rcases hp : jsParseInt t with _ | w
    · simp [tokenValue?, hp] at h
    · simp only [tokenValue?, hp] at h
      split at h
      · next hcond =>
        cases h
        exact ⟨hcond.2, hcond.1⟩
      · cases h
  · rintro ⟨hv, rfl⟩
    rw [tokenValue?_jsIntToString, if_pos hv]

/-! ## Structure of `parseInput` -/

theorem rawTokens_of_trim_empty {s : String} (h : jsTrim s = "") : rawTokens s = [] := by
  simp only [rawTokens, h]
  decide

theorem parseInput_eq_invalid {s : String} (h1 : rawTokens s ≠ [])
    (h2 : invalidTokensOf s ≠ []) :
    parseInput s = .error (.invalidTokens (invalidTokensOf s)) := by
  have ht : ¬(jsTrim s = "") := fun hh => h1 (rawTokens_of_trim_empty hh)
  rw [parseInput, if_neg ht, if_neg h1, if_pos h2]

/-! ## Claim C10: totality of the statistics functions on the empty list -/

/-- C10: every statistics function is total on the empty list and returns its
fixed default: `calcMean`, `calcMedian`, `calcRange` and `calcVariance` (both
divisor policies) return `0`, `calcMode` returns
`{modes: [], frequency: 0, type: 'ninguna'}`, and `getFrequencyTable` returns
the empty table. -/
theorem stats_total_on_empty :
    calcMean [] = 0 ∧ calcMedian [] = 0 ∧ calcRange [] = 0 ∧
    calcVariance [] true = 0 ∧ calcVariance [] false = 0 ∧
    calcMode [] = { modes := [], frequency := 0, type := .ninguna } ∧
    getFrequencyTable [] = [] :=
  ⟨rfl, rfl, rfl, rfl, rfl, rfl, rfl⟩

/-! ## Claim C3: the accepted token grammar -/

/-- C3 (counterexample): the sign-and-digits tokens `"+7"`, `"007"` and
`"-0"` are rejected by the parser, not accepted: `parseInt` succeeds on them
but the canonical-string comparison (and, for negatives, the sign check)
marks them invalid, so the claim that they are valid inputs is false. -/
theorem token_grammar_counterexample :
    parseInput "+7" = .error (.invalidTokens ["+7"]) ∧
    parseInput "007" = .error (.invalidTokens ["007"]) ∧
    parseInput "-0" = .error (.invalidTokens ["-0"]) ∧
    tokenValue? "+7" = none ∧ tokenValue? "007" = none ∧ tokenValue? "-0" = none := by
  decide

/-- C3 (amended): a token is accepted, with value `v`, exactly when it is the
canonical decimal string of a non-negative integer `v` — no plus sign, no
extra leading zeros, no decimal point, no other characters; in particular
`"+7"`, `"007"` and `"-0"` are invalid. -/
theorem token_grammar_canonical :
    (∀ (t : String) (v : Int), tokenValue? t = some v ↔ (0 ≤ v ∧ jsIntToString v = t)) ∧
    tokenValue? "+7" = none ∧ tokenValue? "007" = none ∧ tokenValue? "-0" = none :=
  ⟨fun _ _ => tokenValue?_eq_some_iff, by decide, by decide, by decide⟩

/-! ## Claim C8: all invalid tokens are reported in one error -/

/-- The conclusion of claim C8: `parseInput` fails with a single
`invalidTokens` error listing every offending trimmed token literal in input
order (the invalid list is the order-preserving sublist of all tokens that
fail validation), and no sample is returned. -/
def InvalidTokenReport (s : String) : Prop :=
  parseInput s = .error (.invalidTokens (invalidTokensOf s)) ∧
  invalidTokensOf s <+ (rawTokens s).map jsTrim ∧
  (∀ t ∈ invalidTokensOf s, tokenValue? t = none) ∧
  (∀ t ∈ (rawTokens s).map jsTrim, tokenValue? t = none → t ∈ invalidTokensOf s) ∧
  (∀ ns, parseInput s ≠ .ok ns)

/-- C8: whenever splitting yields at least one token and at least one token
is invalid, `parseInput` fails with one `invalidTokens` error carrying all
offending literals in left-to-right input order, and no partial sample is
returned. -/
theorem parseInput_reports_all_invalid (s : String) (h1 : rawTokens s ≠ [])
    (h2 : ∃ t ∈ (rawTokens s).map jsTrim, tokenValue? t = none) :
    InvalidTokenReport s := by
  obtain ⟨t, ht, hnone⟩ := h2
  have hmem : t ∈ invalidTokensOf s :=
    List.mem_filter.mpr ⟨ht, by rw [hnone]; rfl⟩
  have hinv : invalidTokensOf s ≠ [] := List.ne_nil_of_mem hmem
  refine ⟨parseInput_eq_invalid h1 hinv, List.filter_sublist _, ?_, ?_, ?_⟩
  · intro u hu
    exact Option.isNone_iff_eq_none.mp (List.mem_filter.mp hu).2
  · intro u hu hn
    exact List.mem_filter.mpr ⟨hu, by rw [hn]; rfl⟩
  · rw [parseInput_eq_invalid h1 hinv]
    intro ns
    simp

/-- C8 (witness): the report at the concrete input `"3, a, 5"`. -/
theorem parseInput_reports_all_invalid_witness : InvalidTokenReport "3, a, 5" :=
  parseInput_reports_all_invalid "3, a, 5" (by decide) ⟨"a", by decide, by decide⟩

/-! ## Claim C2: negative integer tokens -/

/-- A token that is the canonical decimal string of some integer. -/
def IntLiteral (t : String) : Prop := ∃ v : Int, jsIntToString v = t

/-- A token that is the canonical decimal string of a negative integer. -/
def NegIntLiteral (t : String) : Prop := ∃ v : Int, v < 0 ∧ jsIntToString v = t

/-- The conclusion of amended claim C2: `parseInput` fails with an
`invalidTokens` error, the invalid list is non-empty and consists of exactly
the negative tokens, and no sample is returned. -/
def NegativeRejectionReport (s : String) : Prop :=
  parseInput s = .error (.invalidTokens (invalidTokensOf s)) ∧
  invalidTokensOf s ≠ [] ∧
  (∀ t ∈ (rawTokens s).map jsTrim, (t ∈ invalidTokensOf s ↔ NegIntLiteral t)) ∧
  (∀ ns, parseInput s ≠ .ok ns)

/-- C2 (counterexample): on `"-3, 5"`, whose tokens are all well-formed
integer literals with one negative, `parseInput` does not succeed with
`[-3, 5]`; it fails, listing `"-3"` as invalid (`script.js` line 34 rejects
`parsed < 0` unconditionally — there is no `allowNegative` option). -/
theorem parseInput_negative_counterexample :
    parseInput "-3, 5" ≠ .ok [-3, 5] ∧
    parseInput "-3, 5" = .error (.invalidTokens ["-3"]) := by
  decide

/-- C2 (amended): for every raw text all of whose tokens are well-formed
integer literals, at least one of them negative, `parseInput` fails with a
single `invalidTokens` error listing exactly the negative tokens (in input
order), and returns no sample — negatives are always rejected. -/
theorem parseInput_rejects_negative_literals (s : String) (h1 : rawTokens s ≠ [])
    (hall : ∀ t ∈ (rawTokens s).map jsTrim, IntLiteral t)
    (hneg : ∃ t ∈ (rawTokens s).map jsTrim, NegIntLiteral t) :
    NegativeRejectionReport s := by
  have hchar : ∀ t ∈ (rawTokens s).map jsTrim, (tokenValue? t = none ↔ NegIntLiteral t) := by
    intro t ht
    obtain ⟨v, hv⟩ := hall t ht
    constructor
    · intro hnone
      refine ⟨v, ?_, hv⟩
      by_contra hge
      push_neg at hge
      have hsome := tokenValue?_eq_some_iff.mpr ⟨hge, hv⟩
      rw [hnone] at hsome
      cases hsome
    · rintro ⟨w, hw, hwt⟩
      rcases ho : tokenValue? t with _ | u
      · rfl
      · exfalso
        obtain ⟨hu, hut⟩ := tokenValue?_eq_some_iff.mp ho
        have huw : u = w := jsIntToString_injective (by rw [hut, hwt])
        omega
  obtain ⟨t, ht, hnegt⟩ := hneg
  have hnone : tokenValue? t = none := (hchar t ht).mpr hnegt
  have hmem : t ∈ invalidTokensOf s :=
    List.mem_filter.mpr ⟨ht, by rw [hnone]; rfl⟩
  have hinv : invalidTokensOf s ≠ [] := List.ne_nil_of_mem hmem
  refine ⟨parseInput_eq_invalid h1 hinv, hinv, ?_, ?_⟩
  · intro u hu
    have : u ∈ invalidTokensOf s ↔ tokenValue? u = none := by
      constructor
      · intro h
        exact Option.isNone_iff_eq_none.mp (List.mem_filter.mp h).2
      · intro h
        exact List.mem_filter.mpr ⟨hu, by rw [h]; rfl⟩
    exact this.trans (hchar u hu)
  · rw [parseInput_eq_invalid h1 hinv]
    intro ns
    simp

/-- C2 (witness): the report at the concrete input `"-3, 5"`. -/
theorem parseInput_rejects_negative_literals_witness :
    NegativeRejectionReport "-3, 5" :=
  parseInput_rejects_negative_literals "-3, 5" (by decide)
    (by
      intro t ht
      have hmap : (rawTokens "-3, 5").map jsTrim = ["-3", "5"] := by decide
      rw [hmap] at ht
      simp only [List.mem_cons, List.not_mem_nil, or_false] at ht
      rcases ht with rfl | rfl
      · exact ⟨-3, by decide⟩
      · exact ⟨5, by decide⟩)
    ⟨"-3", by decide, ⟨-3, by decide, by decide⟩⟩

/-! ## Rounding helper -/

theorem roundTo_eq_self (d : Nat) (x : Rat) (z : Int) (hz : x * 10 ^ d = (z : Rat)) :
    roundTo d x = x := by
  have h10 : (10 : Rat) ^ d ≠ 0 := by positivity
  have hhalf : ⌊(1 : Rat) / 2⌋ = 0 := by
    rw [Int.floor_eq_zero_iff, Set.mem_Ico]
    norm_num
  rw [roundTo, hz, Int.floor_int_add, hhalf, add_zero]
  rw [eq_comm, eq_div_iff h10]
  exact hz

/-! ## Claim C1: the reference scenario -/

/-- C1: for the input string `"13,9,14,11,8,11,10,8,4,11"`, parsing succeeds
with the sample `[13,9,14,11,8,11,10,8,4,11]`, and the statistics are `n=10`,
`sum=99`, `mean=9.9`, `median=10.5`,
`mode = {modes:[11], frequency:3, type:unimodal}`, `range=10`, population
`variance = 7.29` (not the README figure `7.89`), `stdDev = sqrt(7.29) = 2.7`;
the frequency row for value `11` has `fa=3`, `fr=0.3`, `percentage=30`. -/
theorem reference_scenario :
    parseInput "13,9,14,11,8,11,10,8,4,11" = .ok [13, 9, 14, 11, 8, 11, 10, 8, 4, 11] ∧
    ([13, 9, 14, 11, 8, 11, 10, 8, 4, 11] : List Int).length = 10 ∧
    ([13, 9, 14, 11, 8, 11, 10, 8, 4, 11] : List Int).sum = 99 ∧
    calcMean [13, 9, 14, 11, 8, 11, 10, 8, 4, 11] = 99 / 10 ∧
    calcMedian [13, 9, 14, 11, 8, 11, 10, 8, 4, 11] = 21 / 2 ∧
    calcMode [13, 9, 14, 11, 8, 11, 10, 8, 4, 11] =
      { modes := [11], frequency := 3, type := .unimodal } ∧
    calcRange [13, 9, 14, 11, 8, 11, 10, 8, 4, 11] = 10 ∧
    calcVariance [13, 9, 14, 11, 8, 11, 10, 8, 4, 11] true = 729 / 100 ∧
    calcVariance [13, 9, 14, 11, 8, 11, 10, 8, 4, 11] true ≠ 789 / 100 ∧
    Real.sqrt ((calcVariance [13, 9, 14, 11, 8, 11, 10, 8, 4, 11] true : Rat) : Real) = 27 / 10 ∧
    (getFrequencyTable [13, 9, 14, 11, 8, 11, 10, 8, 4, 11]).filter (fun r => r.value = 11) =
      [{ value := 11, fa := 3, fr := 3 / 10, Fa := 8, Fr := 4 / 5, percentage := 30 }] := by
  have hlen : ([13, 9, 14, 11, 8, 11, 10, 8, 4, 11] : List Int).length = 10 := by decide
  have hsum : ([13, 9, 14, 11, 8, 11, 10, 8, 4, 11] : List Int).sum = 99 := by decide
  have hmean : calcMean [13, 9, 14, 11, 8, 11, 10, 8, 4, 11] = 99 / 10 := by
    simp only [calcMean]
    rw [if_neg (by decide), hsum, hlen]
    norm_num
  have hvar : calcVariance [13, 9, 14, 11, 8, 11, 10, 8, 4, 11] true = 729 / 100 := by
    simp only [calcVariance]
    rw [if_neg (by decide), if_neg (by decide), hmean, hlen]
    norm_num [List.map_cons, List.map_nil, List.sum_cons, List.sum_nil]
  have hmedian : calcMedian [13, 9, 14, 11, 8, 11, 10, 8, 4, 11] = 21 / 2 := by
    have hsort : List.insertionSort (· ≤ ·) ([13, 9, 14, 11, 8, 11, 10, 8, 4, 11] : List Int) =
        [4, 8, 8, 9, 10, 11, 11, 11, 13, 14] := by decide
    simp only [calcMedian]
    rw [if_neg (by decide), hsort]
    norm_num [List.getD_cons_zero, List.getD_cons_succ]
  have hsqrt : Real.sqrt ((calcVariance [13, 9, 14, 11, 8, 11, 10, 8, 4, 11] true : Rat) : Real)
      = 27 / 10 := by
    rw [hvar]
    have h729 : (((729 / 100 : Rat)) : Real) = (27 / 10 : Real) ^ 2 := by
      push_cast
      norm_num
    rw [h729, Real.sqrt_sq (by norm_num)]
  have htable : (getFrequencyTable [13, 9, 14, 11, 8, 11, 10, 8, 4, 11]).filter
      (fun r => r.value = 11) =
      [{ value := 11, fa := 3, fr := 3 / 10, Fa := 8, Fr := 4 / 5, percentage := 30 }] := by
    have hu : sortedUnique [13, 9, 14, 11, 8, 11, 10, 8, 4, 11] = [4, 8, 9, 10, 11, 13, 14] := by
      decide
    have hc4 : ([13, 9, 14, 11, 8, 11, 10, 8, 4, 11] : List Int).count 4 = 1 := by decide
    have hc8 : ([13, 9, 14, 11, 8, 11, 10, 8, 4, 11] : List Int).count 8 = 2 := by decide
    have hc9 : ([13, 9, 14, 11, 8, 11, 10, 8, 4, 11] : List Int).count 9 = 1 := by decide
    have hc10 : ([13, 9, 14, 11, 8, 11, 10, 8, 4, 11] : List Int).count 10 = 1 := by decide
    have hc11 : ([13, 9, 14, 11, 8, 11, 10, 8, 4, 11] : List Int).count 11 = 3 := by decide
    have hc13 : ([13, 9, 14, 11, 8, 11, 10, 8, 4, 11] : List Int).count 13 = 1 := by decide
    have hc14 : ([13, 9, 14, 11, 8, 11, 10, 8, 4, 11] : List Int).count 14 = 1 := by decide
    simp only [getFrequencyTable]
    rw [if_neg (by decide), hu]
    simp only [freqRowsAux]
    rw [hc4, hc8, hc9, hc10, hc11, hc13, hc14, hlen]
    simp only [List.filter_cons, List.filter_nil]
    norm_num
    refine ⟨?_, ?_, ?_⟩
    · rw [roundTo_eq_self 4 _ 3000 (by norm_num)]
    · rw [roundTo_eq_self 4 _ 8000 (by norm_num)]
    · rw [roundTo_eq_self 2 _ 3000 (by norm_num)]
  exact ⟨by decide, hlen, hsum, hmean, hmedian, by decide, by decide, hvar,
    by rw [hvar]; norm_num, hsqrt, htable⟩

/-! ## Helper lemmas for maxima, minima and frequency counts -/

theorem le_foldr_max {a : Nat} : ∀ {ns : List Nat}, a ∈ ns → a ≤ ns.foldr max 0 := by
  intro ns
  induction ns with
  | nil => intro h; cases h
  | cons b t ih =>
    intro h
    simp only [List.foldr_cons]
    rcases List.mem_cons.mp h with rfl | h
    · exact le_max_left _ _
    · exact le_trans (ih h) (le_max_right _ _)

theorem foldr_max_mem : ∀ ns : List Nat, ns.foldr max 0 ∈ ns ∨ ns.foldr max 0 = 0 := by
  intro ns
  induction ns with
  | nil => right; rfl
  | cons b t ih =>
    simp only [List.foldr_cons]
    rcases max_cases b (t.foldr max 0) with ⟨heq, _⟩ | ⟨heq, _⟩
    · left
      rw [heq]
      exact List.mem_cons_self _ _
    · rw [heq]
      rcases ih with h | h
      · left
        exact List.mem_cons_of_mem _ h
      · right
        exact h

theorem foldr_max_perm : ∀ {ns ms : List Nat}, ns.Perm ms → ns.foldr max 0 = ms.foldr max 0 := by
  intro ns ms h
  induction h with
  | nil => rfl
  | cons a _ ih => simp only [List.foldr_cons, ih]
  | swap a b t => simp only [List.foldr_cons]; rw [max_left_comm]
  | trans _ _ ih1 ih2 => rw [ih1, ih2]

theorem count_le_maxFreq {values : List Int} {v : Int} (h : v ∈ values) :
    values.count v ≤ maxFreq values :=
  le_foldr_max (List.mem_map_of_mem _ (List.mem_dedup.mpr h))

theorem maxFreq_attained {values : List Int} (h : values ≠ []) :
    ∃ v ∈ values, values.count v = maxFreq values := by
  rcases foldr_max_mem (values.dedup.map fun v => values.count v) with hm | hz
  · obtain ⟨v, hv, hveq⟩ := List.mem_map.mp hm
    exact ⟨v, List.mem_dedup.mp hv, hveq⟩
  · exfalso
    obtain ⟨c, cs, rfl⟩ := List.exists_cons_of_ne_nil h
    have hc : c ∈ c :: cs := List.mem_cons_self _ _
    have hcc : 0 < (c :: cs).count c := List.count_pos_iff.mpr hc
    have hle := count_le_maxFreq hc
    rw [show maxFreq (c :: cs) = 0 from hz] at hle
    omega

theorem one_le_maxFreq {values : List Int} (h : values ≠ []) : 1 ≤ maxFreq values := by
  obtain ⟨v, hv, hc⟩ := maxFreq_attained h
  have := List.count_pos_iff.mpr hv
  omega

theorem sortedUnique_perm_dedup (values : List Int) :
    (sortedUnique values).Perm values.dedup :=
  List.perm_insertionSort _ _

theorem mem_sortedUnique {values : List Int} {v : Int} :
    v ∈ sortedUnique values ↔ v ∈ values :=
  (sortedUnique_perm_dedup values).mem_iff.trans List.mem_dedup

theorem sortedUnique_nodup (values : List Int) : (sortedUnique values).Nodup :=
  ((sortedUnique_perm_dedup values).nodup_iff).mpr (List.nodup_dedup values)

theorem sortedUnique_sorted_le (values : List Int) :
    List.Pairwise (· ≤ ·) (sortedUnique values) :=
  List.sorted_insertionSort _ _

theorem sortedUnique_sorted_lt (values : List Int) :
    List.Pairwise (· < ·) (sortedUnique values) :=
  ((sortedUnique_sorted_le values).and (sortedUnique_nodup values)).imp
    (fun h => lt_of_le_of_ne h.1 h.2)

theorem sortedUnique_ne_nil {values : List Int} (h : values ≠ []) :
    sortedUnique values ≠ [] := by
  intro hh
  obtain ⟨c, cs, rfl⟩ := List.exists_cons_of_ne_nil h
  have hm : c ∈ sortedUnique (c :: cs) := mem_sortedUnique.mpr (List.mem_cons_self _ _)
  rw [hh] at hm
  cases hm

theorem calcMode_eq {values : List Int} (h : values ≠ []) :
    calcMode values =
      { modes := (sortedUnique values).filter (fun v => values.count v = maxFreq values)
        frequency := maxFreq values
        type :=
          if maxFreq values = 1 then ModeKind.ninguna
          else if ((sortedUnique values).filter
              (fun v => values.count v = maxFreq values)).length = 1 then ModeKind.unimodal
          else if ((sortedUnique values).filter
              (fun v => values.count v = maxFreq values)).length = 2 then ModeKind.bimodal
          else ModeKind.multimodal } := by
  simp only [calcMode]
  rw [if_neg (by simpa [List.length_eq_zero] using h)]

/-! ## Claim C4: mode classification -/

/-- The amended mode invariants for a non-empty sample: `modes` is the
strictly-ascending list of exactly the values attaining the maximum
occurrence count `frequency`, and the kind classification holds with the
`frequency > 1` qualifier on the bimodal/multimodal cases (when every value
occurs exactly once the code reports `ninguna` regardless of how many
distinct values there are). -/
def ModeSpec (values : List Int) : Prop :=
  (calcMode values).modes.Pairwise (· < ·) ∧
  (∀ v : Int, v ∈ (calcMode values).modes ↔
    (v ∈ values ∧ values.count v = (calcMode values).frequency)) ∧
  (∀ v ∈ values, values.count v ≤ (calcMode values).frequency) ∧
  ((calcMode values).type = ModeKind.ninguna ↔ (calcMode values).frequency = 1) ∧
  ((calcMode values).type = ModeKind.unimodal ↔
    ((calcMode values).modes.length = 1 ∧ 1 < (calcMode values).frequency)) ∧
  ((calcMode values).type = ModeKind.bimodal ↔
    ((calcMode values).modes.length = 2 ∧ 1 < (calcMode values).frequency)) ∧
  ((calcMode values).type = ModeKind.multimodal ↔
    (3 ≤ (calcMode values).modes.length ∧ 1 < (calcMode values).frequency))

/-- C4 (counterexample): the claimed unqualified biconditionals fail on the
code: for `[1,2]` the modes list has length `2` yet the kind is `ninguna`,
not `bimodal`, and for `[1,2,3]` the modes list has length `3` yet the kind
is `ninguna`, not `multimodal` (the code classifies `ninguna` whenever the
maximum frequency is `1`). -/
theorem calcMode_classification_counterexample :
    ¬(((calcMode [1, 2]).type = ModeKind.bimodal) ↔ (calcMode [1, 2]).modes.length = 2) ∧
    ¬(((calcMode [1, 2, 3]).type = ModeKind.multimodal) ↔
      3 ≤ (calcMode [1, 2, 3]).modes.length) := by
  decide

/-- C4 (amended): for every non-empty sample the mode descriptor satisfies
`kind = ninguna ↔ frequency = 1`,
`kind = unimodal ↔ (modes.length = 1 ∧ frequency > 1)`,
`kind = bimodal ↔ (modes.length = 2 ∧ frequency > 1)`,
`kind = multimodal ↔ (modes.length ≥ 3 ∧ frequency > 1)`, where `modes` is
the ascending list of all distinct values attaining the maximum frequency;
in particular `[1,1,2,2,3]` is bimodal with modes `[1,2]` and frequency `2`,
and `[1,2,3]` has kind `ninguna` with frequency `1`. -/
theorem calcMode_classification (values : List Int) (h : values ≠ []) :
    ModeSpec values ∧
    calcMode [1, 1, 2, 2, 3] = { modes := [1, 2], frequency := 2, type := .bimodal } ∧
    calcMode [1, 2, 3] = { modes := [1, 2, 3], frequency := 1, type := .ninguna } := by
  refine ⟨?_, by decide, by decide⟩
  have hC := calcMode_eq h
  have hfreq : (calcMode values).frequency = maxFreq values := by rw [hC]
  have hmodes : (calcMode values).modes =
      (sortedUnique values).filter (fun v => values.count v = maxFreq values) := by rw [hC]
  have htype : (calcMode values).type =
      (if maxFreq values = 1 then ModeKind.ninguna
       else if ((sortedUnique values).filter
           (fun v => values.count v = maxFreq values)).length = 1 then ModeKind.unimodal
       else if ((sortedUnique values).filter
           (fun v => values.count v = maxFreq values)).length = 2 then ModeKind.bimodal
       else ModeKind.multimodal) := by rw [hC]
  have hmem : ∀ v : Int, v ∈ (calcMode values).modes ↔
      (v ∈ values ∧ values.count v = maxFreq values) := by
    intro v
    rw [hmodes]
    simp only [List.mem_filter, decide_eq_true_eq, mem_sortedUnique]
  have hpw : (calcMode values).modes.Pairwise (· < ·) := by
    rw [hmodes]
    exact (sortedUnique_sorted_lt values).filter _
  obtain ⟨v₀, hv₀m, hv₀c⟩ := maxFreq_attained h
  have hv₀ : v₀ ∈ (calcMode values).modes := (hmem v₀).mpr ⟨hv₀m, hv₀c⟩
  have hlen1 : 1 ≤ (calcMode values).modes.length := by
    have := List.length_pos.mpr (List.ne_nil_of_mem hv₀)
    omega
  have hlenfil : ((sortedUnique values).filter
      (fun v => values.count v = maxFreq values)).length = (calcMode values).modes.length := by
    rw [hmodes]
  refine ⟨hpw, fun v => (hmem v).trans (by rw [hfreq]),
    fun v hv => by rw [hfreq]; exact count_le_maxFreq hv, ?_, ?_, ?_, ?_⟩ <;>
    rw [htype, hfreq, hlenfil]
  · by_cases hmf : maxFreq values = 1
    · simp [hmf]
    · by_cases hL1 : (calcMode values).modes.length = 1
      · simp [hmf, hL1]
      · by_cases hL2 : (calcMode values).modes.length = 2
        · simp [hmf, hL1, hL2]
        · simp [hmf, hL1, hL2]
  · by_cases hmf : maxFreq values = 1
    · simp [hmf]
    · have hgt : 1 < maxFreq values := by
        have := one_le_maxFreq h
        omega
      by_cases hL1 : (calcMode values).modes.length = 1
      · simp [hmf, hL1, hgt]
      · by_cases hL2 : (calcMode values).modes.length = 2
        · simp [hmf, hL1, hL2]
        · simp [hmf, hL1, hL2]
  · by_cases hmf : maxFreq values = 1
    · simp [hmf]
    · have hgt : 1 < maxFreq values := by
        have := one_le_maxFreq h
        omega
      by_cases hL1 : (calcMode values).modes.length = 1
      · simp [hmf, hL1]
      · by_cases hL2 : (calcMode values).modes.length = 2
        · simp [hmf, hL1, hL2, hgt]
        · simp [hmf, hL1, hL2]
  · by_cases hmf : maxFreq values = 1
    · simp [hmf]
    · have hgt : 1 < maxFreq values := by
        have := one_le_maxFreq h
        omega
      by_cases hL1 : (calcMode values).modes.length = 1
      · simp [hmf, hL1]
      · by_cases hL2 : (calcMode values).modes.length = 2
        · simp [hmf, hL1, hL2]
        · have hL3 : 3 ≤ (calcMode values).modes.length := by omega
          simp [hmf, hL1, hL2, hL3, hgt]

/-- C4 (witness): the amended invariants at the concrete sample
`[1,1,2,2,3]`. -/
theorem calcMode_classification_witness :
    ModeSpec [1, 1, 2, 2, 3] ∧
    calcMode [1, 1, 2, 2, 3] = { modes := [1, 2], frequency := 2, type := .bimodal } ∧
    calcMode [1, 2, 3] = { modes := [1, 2, 3], frequency := 1, type := .ninguna } :=
  calcMode_classification [1, 1, 2, 2, 3] (by decide)

/-! ## Claim C6: variance sign and zero characterisation -/

theorem list_sum_eq_zero_iff_of_nonneg :
    ∀ L : List Rat, (∀ x ∈ L, 0 ≤ x) → (L.sum = 0 ↔ ∀ x ∈ L, x = 0) := by
  intro L
  induction L with
  | nil => intro _; simp
  | cons a t ih =>
    intro h
    have ha : 0 ≤ a := h a (List.mem_cons_self _ _)
    have ht : ∀ x ∈ t, 0 ≤ x := fun x hx => h x (List.mem_cons_of_mem _ hx)
    have hts : 0 ≤ t.sum := List.sum_nonneg ht
    rw [List.sum_cons, add_eq_zero_iff_of_nonneg ha hts, ih ht]
    constructor
    · rintro ⟨h1, h2⟩ x hx
      rcases List.mem_cons.mp hx with rfl | hx
      · exact h1
      · exact h2 x hx
    · intro hh
      exact ⟨hh a (List.mem_cons_self _ _), fun x hx => hh x (List.mem_cons_of_mem _ hx)⟩

theorem calcMean_of_all_eq {values : List Int} {c : Int} (h : values ≠ [])
    (hall : ∀ x ∈ values, x = c) : calcMean values = (c : Rat) := by
  have hne : ¬(values.length = 0) := by simpa [List.length_eq_zero] using h
  have hs : values.sum = values.length • c := List.sum_eq_card_nsmul values c hall
  have hlen : ((values.length : Rat)) ≠ 0 := Nat.cast_ne_zero.mpr hne
  rw [calcMean, if_neg hne, hs]
  field_simp

/-- The conclusion of claim C6 for one sample and one divisor policy:
variance is non-negative, it vanishes exactly when all values are equal or
the sample is a singleton, and a singleton always has variance `0`. -/
def VarianceSpec (values : List Int) (population : Bool) : Prop :=
  0 ≤ calcVariance values population ∧
  (calcVariance values population = 0 ↔
    ((∀ a ∈ values, ∀ b ∈ values, a = b) ∨ values.length = 1)) ∧
  (values.length = 1 → calcVariance values population = 0)

/-- C6: for every non-empty sample and both divisor policies, the variance is
non-negative; it is `0` iff all values are equal or `n = 1`; and when `n = 1`
the variance is `0` regardless of the `population` flag, so the sample
divisor `n - 1` never divides by zero. -/
theorem calcVariance_spec (values : List Int) (population : Bool) (h : values ≠ []) :
    VarianceSpec values population := by
  have hne : ¬(values.length = 0) := by simpa [List.length_eq_zero] using h
  by_cases hlen1 : values.length = 1
  · have hv : calcVariance values population = 0 := by
      rw [calcVariance, if_neg hne, if_pos hlen1]
    refine ⟨by rw [hv], ?_, fun _ => hv⟩
    rw [hv]
    simp [hlen1]
  · have h2 : 2 ≤ values.length := by omega
    have hval : calcVariance values population =
        ((values.map (fun val : Int => ((val : Rat) - calcMean values) ^ 2)).sum) /
          (if population then (values.length : Rat) else (values.length : Rat) - 1) := by
      rw [calcVariance, if_neg hne, if_neg hlen1]
    have hSnn : ∀ x ∈ values.map (fun val : Int => ((val : Rat) - calcMean values) ^ 2), 0 ≤ x := by
      intro x hx
      obtain ⟨v, _, rfl⟩ := List.mem_map.mp hx
      positivity
    have hS : 0 ≤ (values.map (fun val : Int => ((val : Rat) - calcMean values) ^ 2)).sum :=
      List.sum_nonneg hSnn
    have hdpos : 0 < (if population then (values.length : Rat) else (values.length : Rat) - 1) := by
      have hc : (2 : Rat) ≤ (values.length : Rat) := by exact_mod_cast h2
      split <;> linarith
    refine ⟨?_, ?_, fun hh => absurd hh hlen1⟩
    · rw [hval]
      exact div_nonneg hS hdpos.le
    · rw [hval, div_eq_zero_iff]
      constructor
      · rintro (hz | hz)
        · left
          have hzero := (list_sum_eq_zero_iff_of_nonneg _ hSnn).mp hz
          intro a ha b hb
          have hza := hzero _ (List.mem_map_of_mem _ ha)
          have hzb := hzero _ (List.mem_map_of_mem _ hb)
          have ha' : (a : Rat) = calcMean values := by
            have := pow_eq_zero_iff (n := 2) (by norm_num) |>.mp hza
            linarith [sub_eq_zero.mp this]
          have hb' : (b : Rat) = calcMean values := by
            have := pow_eq_zero_iff (n := 2) (by norm_num) |>.mp hzb
            linarith [sub_eq_zero.mp this]
          have : (a : Rat) = (b : Rat) := by rw [ha', hb']
          exact_mod_cast this
        · exact absurd hz (ne_of_gt hdpos)
      · rintro (hall | hl1)
        · left
          obtain ⟨c, cs, rfl⟩ := List.exists_cons_of_ne_nil h
          have hallc : ∀ x ∈ c :: cs, x = c :=
            fun x hx => hall x hx c (List.mem_cons_self _ _)
          have hmean : calcMean (c :: cs) = (c : Rat) := calcMean_of_all_eq h hallc
          rw [list_sum_eq_zero_iff_of_nonneg _ hSnn]
          intro x hx
          obtain ⟨v, hv, rfl⟩ := List.mem_map.mp hx
          rw [hallc v hv, hmean]
          ring
        · exact absurd hl1 hlen1

/-- C6 (witness): the variance specification at the sample `[1, 2]` with the
sample divisor policy. -/
theorem calcVariance_spec_witness : VarianceSpec [1, 2] false :=
  calcVariance_spec [1, 2] false (by decide)

/-! ## Claim C9: the median against any ascending-sorted copy -/

/-- The conclusion of claim C9: the median is the single central element of an
ascending-sorted copy of the sample when `n` is odd, and the arithmetic mean
of the two central elements when `n` is even.  The sample itself is a
separate, untouched argument: sorting operates only on a copy. -/
def MedianSpec (values sortedCopy : List Int) : Prop :=
  (values.length % 2 = 1 →
    calcMedian values = ((sortedCopy.getD (values.length / 2) 0 : Int) : Rat)) ∧
  (values.length % 2 = 0 →
    calcMedian values =
      ((sortedCopy.getD (values.length / 2 - 1) 0 +
        sortedCopy.getD (values.length / 2) 0 : Int) : Rat) / 2)

/-- C9: for every non-empty sample and every ascending-sorted permutation of
it (the sorted copy), the median is the central element for odd `n` and the
mean of the two central elements for even `n`; the sample list itself is
never mutated (the sorted list is an independent permutation). -/
theorem calcMedian_spec (values sortedCopy : List Int) (h : values ≠ [])
    (hperm : sortedCopy.Perm values) (hsort : List.Sorted (· ≤ ·) sortedCopy) :
    MedianSpec values sortedCopy := by
  have hs : sortedCopy = List.insertionSort (· ≤ ·) values :=
    List.eq_of_perm_of_sorted (hperm.trans (List.perm_insertionSort _ values).symm)
      hsort (List.sorted_insertionSort _ values)
  have hlen : (List.insertionSort (· ≤ ·) values).length = values.length :=
    List.length_insertionSort _ values
  have hne : ¬(values.length = 0) := by simpa [List.length_eq_zero] using h
  constructor
  · intro hodd
    simp only [calcMedian]
    rw [if_neg hne, hlen, if_neg (by omega), ← hs]
  · intro heven
    simp only [calcMedian]
    rw [if_neg hne, hlen, if_pos heven, ← hs]

/-- C9 (witness): the median specification for the sample `[2, 1]` with its
sorted copy `[1, 2]`. -/
theorem calcMedian_spec_witness : MedianSpec [2, 1] [1, 2] :=
  calcMedian_spec [2, 1] [1, 2] (by decide) (List.Perm.swap 2 1 []) (by decide)

/-! ## Claim C7: frequency table invariants -/

theorem freqRowsAux_map_value (values : List Int) :
    ∀ (us : List Int) (cumFa : Nat) (cumFr : Rat),
      (freqRowsAux values us cumFa cumFr).map (fun r => r.value) = us := by
  intro us
  induction us with
  | nil => intro _ _; rfl
  | cons v vs ih =>
    intro cf cr
    simp only [freqRowsAux, List.map_cons, ih]

theorem freqRowsAux_map_fa (values : List Int) :
    ∀ (us : List Int) (cumFa : Nat) (cumFr : Rat),
      (freqRowsAux values us cumFa cumFr).map (fun r => r.fa) =
        us.map (fun v => values.count v) := by
  intro us
  induction us with
  | nil => intro _ _; rfl
  | cons v vs ih =>
    intro cf cr
    simp only [freqRowsAux, List.map_cons, ih]

theorem freqRowsAux_ne_nil (values : List Int) {us : List Int} (h : us ≠ [])
    (cumFa : Nat) (cumFr : Rat) : freqRowsAux values us cumFa cumFr ≠ [] := by
  intro hh
  apply h
  have hmap := freqRowsAux_map_value values us cumFa cumFr
  rw [hh] at hmap
  exact hmap.symm

theorem freqRowsAux_getLast (values : List Int) :
    ∀ (us : List Int) (cumFa : Nat) (cumFr : Rat), us ≠ [] →
      ∃ r, (freqRowsAux values us cumFa cumFr).getLast? = some r ∧
        r.Fa = cumFa + (us.map (fun v => values.count v)).sum ∧
        r.Fr = roundTo 4 (cumFr +
          (us.map (fun v => (values.count v : Rat) / (values.length : Rat))).sum) := by
  intro us
  induction us with
  | nil => intro _ _ hh; exact absurd rfl hh
  | cons v vs ih =>
    intro cf cr _
    rcases eq_or_ne vs [] with rfl | hvs
    · exact ⟨_, rfl, by simp [freqRowsAux], by simp [freqRowsAux]⟩
    · obtain ⟨r, hr, hFa, hFr⟩ :=
        ih (cf + values.count v) (cr + (values.count v : Rat) / (values.length : Rat)) hvs
      refine ⟨r, ?_, ?_, ?_⟩
      · have hrest := freqRowsAux_ne_nil values hvs
          (cf + values.count v) (cr + (values.count v : Rat) / (values.length : Rat))
        obtain ⟨r₂, rs, hcons⟩ := List.exists_cons_of_ne_nil hrest
        simp only [freqRowsAux]
        rw [hcons, List.getLast?_cons_cons, ← hcons]
        exact hr
      · rw [hFa, List.map_cons, List.sum_cons]
        omega
      · rw [hFr, List.map_cons, List.sum_cons]
        congr 1
        ring

theorem sum_map_div (l : List Int) (f : Int → Rat) (c : Rat) :
    (l.map (fun a => f a / c)).sum = (l.map f).sum / c := by
  induction l with
  | nil => simp
  | cons a t ih => simp [ih, add_div]

/-- The conclusion of claim C7: rows strictly ascending by value, the `fa`
column sums to `n`, and the last row has `Fa = n` and `Fr = 1` (exactly,
because the cumulative relative frequency is accumulated unrounded and only
rounded on emission, and `roundTo 4 1 = 1`). -/
def FreqTableSpec (values : List Int) : Prop :=
  ((getFrequencyTable values).map (fun r => r.value)).Pairwise (· < ·) ∧
  ((getFrequencyTable values).map (fun r => r.fa)).sum = values.length ∧
  ∃ r, (getFrequencyTable values).getLast? = some r ∧
    r.Fa = values.length ∧ r.Fr = 1

/-- C7: for every non-empty sample, the frequency table rows are ordered
strictly ascending by value, the sum of `fa` over all rows equals `n`, the
last row's `Fa` equals `n`, and the last row's `Fr` equals `1` (cumulative
sums are accumulated on unrounded intermediates and rounded only when placed
into a row). -/
theorem getFrequencyTable_invariants (values : List Int) (h : values ≠ []) :
    FreqTableSpec values := by
  have hne : ¬(values.length = 0) := by simpa [List.length_eq_zero] using h
  have hT : getFrequencyTable values = freqRowsAux values (sortedUnique values) 0 0 := by
    rw [getFrequencyTable, if_neg hne]
  have hsum_counts : ((sortedUnique values).map (fun v => values.count v)).sum
      = values.length := by
    have hperm : ((sortedUnique values).map (fun v => values.count v)).Perm
        (values.dedup.map (fun v => values.count v)) :=
      (sortedUnique_perm_dedup values).map _
    rw [hperm.sum_eq, List.sum_map_count_dedup_eq_length]
  refine ⟨?_, ?_, ?_⟩
  · rw [hT, freqRowsAux_map_value]
    exact sortedUnique_sorted_lt values
  · rw [hT, freqRowsAux_map_fa, hsum_counts]
  · obtain ⟨r, hr, hFa, hFr⟩ :=
      freqRowsAux_getLast values (sortedUnique values) 0 0 (sortedUnique_ne_nil h)
    refine ⟨r, by rw [hT]; exact hr, ?_, ?_⟩
    · rw [hFa, Nat.zero_add, hsum_counts]
    · have hlen : ((values.length : Rat)) ≠ 0 := Nat.cast_ne_zero.mpr hne
      have hcast : ((sortedUnique values).map (fun v => (values.count v : Rat))).sum
          = (values.length : Rat) := by
        have hmm : (sortedUnique values).map (fun v => (values.count v : Rat)) =
            ((sortedUnique values).map (fun v => values.count v)).map Nat.cast := by
          rw [List.map_map]
          rfl
        rw [hmm, ← Nat.cast_list_sum, hsum_counts]
      rw [hFr, zero_add, sum_map_div, hcast, div_self hlen]
      rw [roundTo_eq_self 4 1 (10 ^ 4) (by norm_num)]

/-- C7 (witness): the invariants at the concrete sample `[5]`. -/
theorem getFrequencyTable_invariants_witness : FreqTableSpec [5] :=
  getFrequencyTable_invariants [5] (by decide)

/-! ## Claim C5: permutation invariance -/

theorem foldl_max_mem : ∀ (xs : List Int) (x : Int), xs.foldl max x ∈ x :: xs := by
  intro xs
  induction xs with
  | nil => intro x; exact List.mem_cons_self x []
  | cons a t ih =>
    intro x
    simp only [List.foldl_cons]
    rcases List.mem_cons.mp (ih (max x a)) with h | h
    · rw [h]
      rcases max_cases x a with ⟨he, _⟩ | ⟨he, _⟩
      · rw [he]
        exact List.mem_cons_self _ _
      · rw [he]
        exact List.mem_cons_of_mem _ (List.mem_cons_self _ _)
    · exact List.mem_cons_of_mem _ (List.mem_cons_of_mem _ h)

theorem le_foldl_max_init : ∀ (xs : List Int) (x : Int), x ≤ xs.foldl max x := by
  intro xs
  induction xs with
  | nil => intro x; exact le_rfl
  | cons a t ih =>
    intro x
    simp only [List.foldl_cons]
    exact le_trans (le_max_left x a) (ih (max x a))

theorem le_foldl_max_of_mem : ∀ (xs : List Int) (x v : Int), v ∈ x :: xs → v ≤ xs.foldl max x := by
  intro xs
  induction xs with
  | nil =>
    intro x v hv
    rw [List.mem_singleton] at hv
    exact le_of_eq hv
  | cons a t ih =>
    intro x v hv
    simp only [List.foldl_cons]
    rcases List.mem_cons.mp hv with rfl | hv
    · exact le_trans (le_max_left v a) (le_foldl_max_init t _)
    · rcases List.mem_cons.mp hv with rfl | hv
      · exact le_trans (le_max_right x v) (le_foldl_max_init t _)
      · exact ih (max x a) v (List.mem_cons_of_mem _ hv)

theorem foldl_min_mem : ∀ (xs : List Int) (x : Int), xs.foldl min x ∈ x :: xs := by
  intro xs
  induction xs with
  | nil => intro x; exact List.mem_cons_self x []
  | cons a t ih =>
    intro x
    simp only [List.foldl_cons]
    rcases List.mem_cons.mp (ih (min x a)) with h | h
    · rw [h]
      rcases min_cases x a with ⟨he, _⟩ | ⟨he, _⟩
      · rw [he]
        exact List.mem_cons_self _ _
      · rw [he]
        exact List.mem_cons_of_mem _ (List.mem_cons_self _ _)
    · exact List.mem_cons_of_mem _ (List.mem_cons_of_mem _ h)

theorem foldl_min_init_le : ∀ (xs : List Int) (x : Int), xs.foldl min x ≤ x := by
  intro xs
  induction xs with
  | nil => intro x; exact le_rfl
  | cons a t ih =>
    intro x
    simp only [List.foldl_cons]
    exact le_trans (ih (min x a)) (min_le_left x a)

theorem foldl_min_le_of_mem : ∀ (xs : List Int) (x v : Int), v ∈ x :: xs → xs.foldl min x ≤ v := by
  intro xs
  induction xs with
  | nil =>
    intro x v hv
    rw [List.mem_singleton] at hv
    exact le_of_eq hv.symm
  | cons a t ih =>
    intro x v hv
    simp only [List.foldl_cons]
    rcases List.mem_cons.mp hv with rfl | hv
    · exact le_trans (foldl_min_init_le t _) (min_le_left v a)
    · rcases List.mem_cons.mp hv with rfl | hv
      · exact le_trans (foldl_min_init_le t _) (min_le_right x v)
      · exact ih (min x a) v (List.mem_cons_of_mem _ hv)

theorem jsMax_mem : ∀ (values : List Int), values ≠ [] → jsMax values ∈ values
  | [], h => absurd rfl h
  | x :: xs, _ => foldl_max_mem xs x

theorem le_jsMax : ∀ (values : List Int), ∀ v ∈ values, v ≤ jsMax values
  | [], v, hv => absurd hv (List.not_mem_nil v)
  | x :: xs, v, hv => le_foldl_max_of_mem xs x v hv

theorem jsMin_mem : ∀ (values : List Int), values ≠ [] → jsMin values ∈ values
  | [], h => absurd rfl h
  | x :: xs, _ => foldl_min_mem xs x

theorem jsMin_le : ∀ (values : List Int), ∀ v ∈ values, jsMin values ≤ v
  | [], v, hv => absurd hv (List.not_mem_nil v)
  | x :: xs, v, hv => foldl_min_le_of_mem xs x v hv

theorem jsMax_perm {l l' : List Int} (h : l.Perm l') (hne : l ≠ []) :
    jsMax l = jsMax l' := by
  have hne' : l' ≠ [] := by
    intro hh
    rw [hh] at h
    exact hne h.eq_nil
  exact le_antisymm (le_jsMax l' _ (h.mem_iff.mp (jsMax_mem l hne)))
    (le_jsMax l _ (h.mem_iff.mpr (jsMax_mem l' hne')))

theorem jsMin_perm {l l' : List Int} (h : l.Perm l') (hne : l ≠ []) :
    jsMin l = jsMin l' := by
  have hne' : l' ≠ [] := by
    intro hh
    rw [hh] at h
    exact hne h.eq_nil
  exact le_antisymm (jsMin_le l _ (h.mem_iff.mpr (jsMin_mem l' hne')))
    (jsMin_le l' _ (h.mem_iff.mp (jsMin_mem l hne)))

theorem calcMean_perm {l l' : List Int} (h : l.Perm l') : calcMean l = calcMean l' := by
  rw [calcMean, calcMean, h.length_eq, h.sum_eq]

theorem insertionSort_perm_congr {l l' : List Int} (h : l.Perm l') :
    List.insertionSort (· ≤ ·) l = List.insertionSort (· ≤ ·) l' :=
  List.eq_of_perm_of_sorted (((List.perm_insertionSort _ l).trans h).trans
    (List.perm_insertionSort _ l').symm) (List.sorted_insertionSort _ l)
    (List.sorted_insertionSort _ l')

theorem calcMedian_perm {l l' : List Int} (h : l.Perm l') : calcMedian l = calcMedian l' := by
  simp only [calcMedian, insertionSort_perm_congr h, h.length_eq]

theorem maxFreq_perm {l l' : List Int} (h : l.Perm l') : maxFreq l = maxFreq l' := by
  rw [maxFreq, maxFreq, foldr_max_perm (h.dedup.map _)]
  exact congrArg (fun L => L.foldr max 0) (List.map_congr_left fun v _ => h.count_eq v)

theorem sortedUnique_perm_congr {l l' : List Int} (h : l.Perm l') :
    sortedUnique l = sortedUnique l' := by
  rw [sortedUnique, sortedUnique]
  exact List.eq_of_perm_of_sorted (((List.perm_insertionSort _ _).trans h.dedup).trans
    (List.perm_insertionSort _ _).symm) (List.sorted_insertionSort _ _)
    (List.sorted_insertionSort _ _)

theorem calcMode_perm {l l' : List Int} (h : l.Perm l') : calcMode l = calcMode l' := by
  rcases eq_or_ne l [] with rfl | hne
  · rw [show l' = [] from h.symm.eq_nil]
  · have hne' : l' ≠ [] := by
      intro hh
      rw [hh] at h
      exact hne h.eq_nil
    rw [calcMode_eq hne, calcMode_eq hne', maxFreq_perm h, sortedUnique_perm_congr h]
    have hfil : (sortedUnique l').filter (fun v => l.count v = maxFreq l') =
        (sortedUnique l').filter (fun v => l'.count v = maxFreq l') :=
      List.filter_congr fun v _ => by rw [h.count_eq v]
    rw [hfil]

theorem calcRange_perm {l l' : List Int} (h : l.Perm l') : calcRange l = calcRange l' := by
  rcases eq_or_ne l [] with rfl | hne
  · rw [show l' = [] from h.symm.eq_nil]
  · have hne' : l' ≠ [] := by
      intro hh
      rw [hh] at h
      exact hne h.eq_nil
    have h0 : ¬(l.length = 0) := by simpa [List.length_eq_zero] using hne
    have h0' : ¬(l'.length = 0) := by simpa [List.length_eq_zero] using hne'
    rw [calcRange, calcRange, if_neg h0, if_neg h0', jsMax_perm h hne, jsMin_perm h hne]

theorem calcVariance_perm {l l' : List Int} (h : l.Perm l') (population : Bool) :
    calcVariance l population = calcVariance l' population := by
  simp only [calcVariance, h.length_eq, calcMean_perm h]
  rw [(h.map _).sum_eq]

theorem freqRowsAux_congr {l l' : List Int} (hc : ∀ v, l.count v = l'.count v)
    (hlen : l.length = l'.length) :
    ∀ (us : List Int) (cf : Nat) (cr : Rat),
      freqRowsAux l us cf cr = freqRowsAux l' us cf cr := by
  intro us
  induction us with
  | nil => intro _ _; rfl
  | cons v vs ih =>
    intro cf cr
    simp only [freqRowsAux, hc v, hlen, ih]

theorem getFrequencyTable_perm {l l' : List Int} (h : l.Perm l') :
    getFrequencyTable l = getFrequencyTable l' := by
  simp only [getFrequencyTable, h.length_eq, sortedUnique_perm_congr h]
  rcases eq_or_ne l'.length 0 with h0 | h0
  · simp [h0]
  · rw [if_neg h0, if_neg h0]
    exact freqRowsAux_congr (fun v => h.count_eq v) h.length_eq _ _ _

/-- The conclusion of claim C5: the whole statistics record of
`validateAndProcess`, the frequency table, and the standard deviation agree
between the two samples. -/
def PermInvarianceSpec (l l' : List Int) : Prop :=
  computeStats l = computeStats l' ∧
  getFrequencyTable l = getFrequencyTable l' ∧
  Real.sqrt ((calcVariance l true : Rat) : Real) =
    Real.sqrt ((calcVariance l' true : Rat) : Real)

/-- C5: for every non-empty sample and every permutation of it, every field
of the computed summary (`n`, `sum`, `min`, `max`, `mean`, `median`, the mode
descriptor, `range`, `variance`, and hence `stdDev`) and the entire frequency
table are identical to those computed from the original order. -/
theorem computeStats_perm_invariant (l l' : List Int) (hne : l ≠ [])
    (h : l.Perm l') : PermInvarianceSpec l l' := by
  refine ⟨?_, getFrequencyTable_perm h, by rw [calcVariance_perm h true]⟩
  simp only [computeStats, h.length_eq, h.sum_eq, jsMin_perm h hne, jsMax_perm h hne,
    calcMean_perm h, calcMedian_perm h, calcMode_perm h, calcRange_perm h,
    calcVariance_perm h true]

/-- C5 (witness): invariance between `[2, 1]` and its permutation `[1, 2]`. -/
theorem computeStats_perm_invariant_witness : PermInvarianceSpec [2, 1] [1, 2] :=
  computeStats_perm_invariant [2, 1] [1, 2] (by decide) (List.Perm.swap 1 2 [])
